import Mathlib

set_option maxHeartbeats 1000000

/-!
Verification development for the `filetool` file-collection engine
(`filetool/files.py`, `filetool/meth.py`).

The embedding is shallow: paths and file names are lists of characters,
the CPython `os.path` helpers used by the code (`split`, `splitext`,
`join`) are translated function-for-function from their posix
implementations, the filesystem is an explicit `Disk` record of the
stat-family functions the code calls, and the `FileCollection`
container is an insertion-ordered association list mirroring the
`OrderedDict` used by the source.  Python exceptions are modelled with
`Option`/`PyResult` results; a raising operation performs no state
update exactly where the source performs none before the raise.
-/

abbrev LC := List Char

/-- Model of the core of posix `os.path.split`: cut `p` right after the
last `'/'` (CPython: `i = p.rfind(sep) + 1; head, tail = p[:i], p[i:]`).
Returns the raw head (still carrying its trailing slash) and the tail. -/
def splitRaw : LC → LC × LC
  | [] => ([], [])
  | c :: rest =>
    if ('/' : Char) ∈ rest then
      ((c :: (splitRaw rest).1), (splitRaw rest).2)
    else if c = '/' then ([c], rest)
    else ([], c :: rest)

/-- Python `head.rstrip(sep)`: drop all trailing slashes. -/
def rstripSlash (l : LC) : LC := (l.reverse.dropWhile (fun c => c = '/')).reverse

/-- Model of posix `os.path.split`: the raw cut, then the head is
stripped of trailing slashes unless it consists of slashes only
(CPython: `if head and head != sep*len(head): head = head.rstrip(sep)`). -/
def osSplit (p : LC) : LC × LC :=
  if (splitRaw p).1 ≠ [] ∧ (splitRaw p).1.any (fun c => c ≠ '/') then
    (rstripSlash (splitRaw p).1, (splitRaw p).2)
  else ((splitRaw p).1, (splitRaw p).2)

/-- Index of the last occurrence of a character (Python `str.rfind`),
`none` when the character is absent. -/
def rfindIdx (c : Char) : LC → Option Nat
  | [] => none
  | x :: xs =>
    match rfindIdx c xs with
    | some i => some (i + 1)
    | none => if x = c then some 0 else none

/-- Model of posix `os.path.splitext` (CPython `genericpath._splitext`):
split at the last dot provided it lies after the last slash and at least
one character between them is not a dot (so names made of leading dots,
like `.bashrc`, have no extension). -/
def osSplitext (p : LC) : LC × LC :=
  match rfindIdx '.' p with
  | none => (p, [])
  | some d =>
    let s := match rfindIdx '/' p with
      | none => 0
      | some i => i + 1
    if ((p.take d).drop s).any (fun c => c ≠ '.') then (p.take d, p.drop d)
    else (p, [])

/-- Model of posix `os.path.join` restricted to the two-argument calls the
source makes: `join(a, b)` returns `b` if `b` is absolute, else appends
`b` to `a`, inserting a separator unless `a` is empty or already ends
with one. -/
def osJoin (a b : LC) : LC :=
  if b.head? = some '/' then b
  else if a = [] ∨ a.getLast? = some '/' then a ++ b
  else a ++ '/' :: b

/-- ASCII upper-to-lower substitution table for Python `str.lower`.
The source only lower-cases file extensions; non-ASCII case folding is
outside the model. -/
def upperLowerTable : List (Char × Char) :=
  [('A', 'a'), ('B', 'b'), ('C', 'c'), ('D', 'd'), ('E', 'e'), ('F', 'f'),
   ('G', 'g'), ('H', 'h'), ('I', 'i'), ('J', 'j'), ('K', 'k'), ('L', 'l'),
   ('M', 'm'), ('N', 'n'), ('O', 'o'), ('P', 'p'), ('Q', 'q'), ('R', 'r'),
   ('S', 's'), ('T', 't'), ('U', 'u'), ('V', 'v'), ('W', 'w'), ('X', 'x'),
   ('Y', 'y'), ('Z', 'z')]

/-- Association lookup in the case table. -/
def tlookup (c : Char) : List (Char × Char) → Option Char
  | [] => none
  | (k, v) :: rest => if c = k then some v else tlookup c rest

/-- Model of Python `str.lower` on one ASCII character. -/
def pyToLower (c : Char) : Char := (tlookup c upperLowerTable).getD c

/-- Model of Python `str.lower` on a string. -/
def pyLower (s : LC) : LC := s.map pyToLower

/-- Boolean check for the no-double-slash condition. -/
def noDoubleSlash : LC → Bool
  | [] => true
  | [_] => true
  | a :: b :: rest => decide (¬(a = '/' ∧ b = '/')) && noDoubleSlash (b :: rest)

/-- Normalized absolute path of a non-root filesystem object: starts with
a slash, does not end with one, and has no two consecutive slashes.
`os.path.abspath` (which the source applies to every stored path) always
returns such a path for an existing regular file. -/
def normAbsB (p : LC) : Bool :=
  decide (p.head? = some '/') && !(decide (p.getLast? = some '/'))
    && noDoubleSlash p

/-- The normalized-absolute-path condition as a (decidable) proposition. -/
abbrev normAbs (p : LC) : Prop := normAbsB p = true

/-- The filesystem as the code observes it: the stat-family calls made
during `WinFile` initialization.  Timestamps are modelled as integers. -/
structure Disk where
  isfile : LC → Bool
  getsize : LC → Int
  getatime : LC → Int
  getctime : LC → Int
  getmtime : LC → Int
  md5file : LC → LC

/-- The `WinFile` record (`filetool/files.py`).  `__slots__` attributes
that a given initialization tier leaves unset are modelled as `none`. -/
structure WinFile where
  abspath : LC
  dirname : LC
  basename : LC
  fname : LC
  ext : LC
  size_on_disk : Option Int
  atime : Option Int
  ctime : Option Int
  mtime : Option Int
  md5 : Option LC
  deriving DecidableEq, Repr

/-- Construction of a `WinFile` from an (already absolute, normalized)
path under initialization tier `mode`: `WinFile.__init__` checks
`os.path.isfile` and then runs the tier's initializer.  Tier 1
(`level1_...`, fast) sets only the path-derived fields; tier 3
(`level3_...`, slow) additionally sets size, the three timestamps and
the md5 hash; any other value of the class attribute `init_mode` runs
the default tier-2 initializer (`level2_...`, regular: no md5).  All
tiers compute `dirname, basename = os.path.split(abspath)`,
`fname, ext = os.path.splitext(basename)` and `ext = ext.lower()`.
Returns `none` when the path is not a regular file (the
`EnvironmentError` raise). -/
def mkWinFile (d : Disk) (mode : Nat) (p : LC) : Option WinFile :=
  if d.isfile p then
    some (if mode = 1 then
      { abspath := p, dirname := (osSplit p).1, basename := (osSplit p).2,
        fname := (osSplitext (osSplit p).2).1,
        ext := pyLower (osSplitext (osSplit p).2).2,
        size_on_disk := none, atime := none, ctime := none, mtime := none,
        md5 := none }
    else if mode = 3 then
      { abspath := p, dirname := (osSplit p).1, basename := (osSplit p).2,
        fname := (osSplitext (osSplit p).2).1,
        ext := pyLower (osSplitext (osSplit p).2).2,
        size_on_disk := some (d.getsize p), atime := some (d.getatime p),
        ctime := some (d.getctime p), mtime := some (d.getmtime p),
        md5 := some (d.md5file p) }
    else
      { abspath := p, dirname := (osSplit p).1, basename := (osSplit p).2,
        fname := (osSplitext (osSplit p).2).1,
        ext := pyLower (osSplitext (osSplit p).2).2,
        size_on_disk := some (d.getsize p), atime := some (d.getatime p),
        ctime := some (d.getctime p), mtime := some (d.getmtime p),
        md5 := none })
  else none

/-- A disk on which every path is a regular file, with degenerate stat
values; used for concrete evaluations of the path logic, which never
consults the stat fields. -/
def anyDisk : Disk :=
  { isfile := fun _ => true, getsize := fun _ => 0, getatime := fun _ => 0,
    getctime := fun _ => 0, getmtime := fun _ => 0, md5file := fun _ => [] }

/-- The unit table of `repr_data_size` (`filetool/meth.py`). -/
def magnitudeUnits : List String :=
  ["B", "KB", "MB", "GB", "TB", "PB", "EB", "ZB", "YB"]

/-- The `while 1` loop of `repr_data_size`: repeatedly `index += 1;
size, mod = divmod(size, 1024)` until `size < 1024`.  Returns the final
`(index, size, mod)`. -/
def sizeLoop (size idx : Nat) : Nat × Nat × Nat :=
  if size / 1024 < 1024 then (idx + 1, size / 1024, size % 1024)
  else sizeLoop (size / 1024) (idx + 1)
termination_by size
decreasing_by
  rename_i h
  have hpos : 0 < size := by
    rcases Nat.eq_zero_or_pos size with h0 | h0
    · subst h0; simp at h
    · exact h0
  exact Nat.div_lt_self hpos (by norm_num)

/-- Round `num / den` to the nearest integer, ties to even - the rounding
performed by CPython's `"%.2f"` formatting of a float.  In
`repr_data_size` the formatted value `size + mod/1024.0` is always exactly
representable as a double (its numerator is below `2^21`), so decimal
rounding of the exact rational is a faithful model. -/
def roundHalfEven (num den : Nat) : Nat :=
  if 2 * (num % den) < den then num / den
  else if den < 2 * (num % den) then num / den + 1
  else if (num / den) % 2 = 0 then num / den else num / den + 1

/-- The string `"{0:.2f}".format(size + mod/1024.0)` for the loop
outputs `size = q`, `mod = m`: the value `q + m/1024` rendered with two
decimal digits. -/
def fmtFrac2 (q m : Nat) : String :=
  let r := roundHalfEven ((q * 1024 + m) * 100) 1024
  toString (r / 100) ++ "." ++
    (if r % 100 < 10 then "0" ++ toString (r % 100) else toString (r % 100))

/-- Model of `repr_data_size(size_in_bytes, precision=2)`
(`filetool/meth.py`, default precision): below 1024 the integer byte
count with unit `B`; otherwise the divide-down loop followed by
two-decimal formatting and a unit lookup.  An out-of-range unit index
(the `IndexError` for inputs at or above `1024^9`) is `none`. -/
def repr_data_size (n : Nat) : Option String :=
  if n < 1024 then some (toString n ++ " B")
  else
    (magnitudeUnits.get? (sizeLoop n 0).1).map
      (fun u => fmtFrac2 (sizeLoop n 0).2.1 (sizeLoop n 0).2.2 ++ " " ++ u)

/-- Python exceptions raised by the modelled operations.  `notAFile` is
the `EnvironmentError` of `WinFile.__init__`; `invalidExtensionFormat`
and `notSortable` are `ValueError` raises named after the spec taxonomy;
`osError` stands for a failing `os.rename`; `valueError` is the
`set_initialize_mode` complexity check. -/
inductive PyErr
  | notAFile
  | invalidExtensionFormat
  | notSortable
  | osError
  | valueError
  deriving DecidableEq, Repr

/-- Result of a Python call: a value, or a raised exception.  A raising
call leaves the caller's state untouched wherever the source raises
before mutating. -/
inductive PyResult (α : Type)
  | ok (val : α)
  | raised (e : PyErr)
  deriving DecidableEq, Repr

/-- The `FileCollection` state: `files` is the insertion-ordered
`OrderedDict` mapping absolute path to `WinFile`, modelled as an
association list; `order` is the optional explicit ordering attribute
`self.order`, absent until the first successful `sort_by`. -/
structure FC where
  files : List (LC × WinFile)
  order : Option (List LC)
  deriving DecidableEq, Repr

/-- Dictionary lookup `files[k]` (first binding wins; with distinct keys
this is exactly the `OrderedDict` lookup). -/
def alookup (k : LC) : List (LC × WinFile) → Option WinFile
  | [] => none
  | (k2, w) :: rest => if k = k2 then some w else alookup k rest

/-- The key view `files.keys()`. -/
def pathsOf (fs : List (LC × WinFile)) : List LC := fs.map Prod.fst

/-- `files.setdefault(k, w)`: keep an existing binding, else append the
new one at the end (insertion order). -/
def setdefault (fs : List (LC × WinFile)) (k : LC) (w : WinFile) :
    List (LC × WinFile) :=
  match alookup k fs with
  | some _ => fs
  | none => fs ++ [(k, w)]

/-- `del files[k]`: remove the binding, or `none` for the `KeyError`. -/
def ddel (k : LC) : List (LC × WinFile) → Option (List (LC × WinFile))
  | [] => none
  | (k2, w) :: rest =>
    if k = k2 then some rest
    else (ddel k rest).map (fun r => (k2, w) :: r)

/-- `FileCollection.iterpaths`: yield `self.order` verbatim when the
attribute exists (no membership check is performed on the yielded
paths); on the `AttributeError` of a missing `self.order`, yield the
dictionary keys. -/
def iterpaths (fc : FC) : List LC :=
  match fc.order with
  | some ord => ord
  | none => pathsOf fc.files

/-- The ordered branch of `FileCollection.iterfiles`: `self.files[path]`
for each path of `self.order`; the first `KeyError` (a stale path) jumps
to the bare `except` branch, which restarts and yields every value of
the dictionary. -/
def iterfilesOrd (fs : List (LC × WinFile)) : List LC → List WinFile
  | [] => []
  | p :: ps =>
    match alookup p fs with
    | some w => w :: iterfilesOrd fs ps
    | none => fs.map Prod.snd

/-- `FileCollection.iterfiles`: the ordered branch when `self.order`
exists, else the dictionary values. -/
def iterfiles (fc : FC) : List WinFile :=
  match fc.order with
  | some ord => iterfilesOrd fc.files ord
  | none => fc.files.map Prod.snd

/-- The loop of `FileCollection.__add__`:
`for winfile in other_fc.iterfiles(): fc.files.setdefault(...)`. -/
def addAll (fs : List (LC × WinFile)) (ws : List WinFile) : List (LC × WinFile) :=
  ws.foldl (fun acc w => setdefault acc w.abspath w) fs

/-- `FileCollection.__add__` (union): deep-copy the left collection
(pure data, so the copy is the value itself) and `setdefault` every
entity yielded by the right collection's `iterfiles`. -/
def fcAdd (A B : FC) : FC :=
  { files := addAll A.files (iterfiles B), order := A.order }

/-- The `try: del ... except: pass` of `FileCollection.__sub__`. -/
def delIfPresent (fs : List (LC × WinFile)) (k : LC) : List (LC × WinFile) :=
  match ddel k fs with
  | some r => r
  | none => fs

/-- `FileCollection.__sub__` (difference): deep-copy the left collection
and delete every path yielded by the right collection's `iterpaths`,
ignoring misses. -/
def fcSub (A B : FC) : FC :=
  { files := (iterpaths B).foldl delIfPresent A.files, order := A.order }

/-- Well-formedness of a collection state: distinct keys (an
`OrderedDict` cannot hold duplicate keys) and each stored entity's
`abspath` equal to its key (true of every state produced by the
collection's own operations). -/
def wfFC (fc : FC) : Prop :=
  (pathsOf fc.files).Nodup ∧ ∀ kw ∈ fc.files, kw.2.abspath = kw.1

/-- The explicit order, when present, enumerates exactly the
collection's paths - true right after a successful `sort_by`, and
broken by a later `add` (missing path) or `remove` (stale path). -/
def orderExact (fc : FC) : Prop :=
  ∀ ord, fc.order = some ord → ∀ p, p ∈ ord ↔ p ∈ pathsOf fc.files

/-- The deletion step shared by `FileCollection.remove`:
`try: del self.files[k] except KeyError: prt(...)`.  The boolean
records whether the absence was reported. -/
def removeKey (fc : FC) (k : LC) : PyResult (FC × Bool) :=
  match ddel k fc.files with
  | some fs => .ok ({ fc with files := fs }, false)
  | none => .ok (fc, true)

/-- Argument of `FileCollection.remove`: an absolute path string or a
`WinFile` instance. -/
inductive RemoveArg
  | path (p : LC)
  | entity (w : WinFile)

/-- `FileCollection.remove(abspath_or_winfile)`: a path argument is
first turned into a `WinFile` (raising `EnvironmentError` if the path
is not an existing regular file), then the entity's `abspath` is
deleted from the dictionary, a miss being reported, not raised.
`mode` is the process-wide tier under which the lookup entity is
constructed. -/
def fcRemove (d : Disk) (mode : Nat) (fc : FC) (a : RemoveArg) :
    PyResult (FC × Bool) :=
  match a with
  | .path p =>
    match mkWinFile d mode p with
    | none => .raised .notAFile
    | some w => removeKey fc w.abspath
  | .entity w => removeKey fc w.abspath

/-- An attribute value of a `WinFile` as seen by `getattr`: an integer
(size or a timestamp) or a string (a path component or the md5 hex
digest). -/
inductive AV
  | intv (n : Int)
  | strv (cs : LC)
  deriving DecidableEq, Repr

/-- Lexicographic comparison of strings (Python `str` ordering). -/
def lexLE : LC → LC → Bool
  | [], _ => true
  | _ :: _, [] => false
  | a :: as, b :: bs => if a = b then lexLE as bs else decide (a < b)

/-- Comparison of attribute values.  Within one `sort_by` call all
values come from the same attribute and therefore have one type; the
cross-type cases are arbitrary (Python would raise `TypeError` there). -/
def avLE : AV → AV → Bool
  | .intv a, .intv b => decide (a ≤ b)
  | .strv a, .strv b => lexLE a b
  | .intv _, .strv _ => true
  | .strv _, .intv _ => false

/-- Insert an element after every already-placed element it is not
strictly smaller than; folding this left-to-right over a list gives the
stable sort that CPython's `sorted` implements. -/
def insertStable {α : Type} (le : α → α → Bool) (x : α) : List α → List α
  | [] => [x]
  | y :: ys => if le y x then y :: insertStable le x ys else x :: y :: ys

/-- Stable sort: insert the elements in their original order.  With
`reverse=True` CPython sorts with the comparison flipped while keeping
equal elements in original order; that case is modelled by flipping the
comparison argument. -/
def pySorted {α : Type} (le : α → α → Bool) (l : List α) : List α :=
  l.foldl (fun acc x => insertStable le x acc) []

/-- Python `getattr(winfile, attr_name)` over the `__slots__` of
`WinFile`: `none` is the `AttributeError`, raised both for a slot the
current tier left unset and for a name outside the slots. -/
def pygetattr (w : WinFile) (a : String) : Option AV :=
  if a = "abspath" then some (.strv w.abspath)
  else if a = "dirname" then some (.strv w.dirname)
  else if a = "basename" then some (.strv w.basename)
  else if a = "fname" then some (.strv w.fname)
  else if a = "ext" then some (.strv w.ext)
  else if a = "size_on_disk" then w.size_on_disk.map .intv
  else if a = "atime" then w.atime.map .intv
  else if a = "ctime" then w.ctime.map .intv
  else if a = "mtime" then w.mtime.map .intv
  else if a = "md5" then w.md5.map .strv
  else none

/-- The dictionary-building loop of `FileCollection.sort_by`: collect
`getattr(winfile, attr_name)` for every entry in insertion order,
stopping at the first `AttributeError`. -/
def collectAttrs (a : String) : List (LC × WinFile) → Option (List (LC × AV))
  | [] => some []
  | (k, w) :: rest =>
    match pygetattr w a with
    | none => none
    | some v => (collectAttrs a rest).map (fun r => (k, v) :: r)

/-- `FileCollection.sort_by(attr_name, reverse)`: build the
`{abspath: value}` dictionary, sort its items by value (stable,
reversed comparison when `reverse`), and assign the key list to
`self.order`.  An `AttributeError` while building the dictionary is
re-raised as the `NotSortable` `ValueError` and `self.order` is left
untouched (the assignment is never reached).  The result pairs the
outcome with the state after the call. -/
def sort_by (fc : FC) (a : String) (reverse : Bool) : Option PyErr × FC :=
  match collectAttrs a fc.files with
  | none => (some .notSortable, fc)
  | some d =>
    let sorted := if reverse
      then pySorted (fun x y : LC × AV => avLE y.2 x.2) d
      else pySorted (fun x y : LC × AV => avLE x.2 y.2) d
    (none, { fc with order := some (sorted.map Prod.fst) })

/-- `WinFile.set_initialize_mode(complexity)`: accept 3, 2 or 1 as the
new process-wide tier, raise `ValueError` otherwise. -/
def setInitMode (c : Nat) : PyResult Nat :=
  if c = 3 then .ok 3
  else if c = 2 then .ok 2
  else if c = 1 then .ok 1
  else .raised .valueError

/-- `FileCollection.from_path_by_md5(...)` as a state transformer on the
process-wide tier: save `init_mode`, switch to the slow tier
(`use_slow_init`), run the criterion walk under tier 3 (`walk 3`), and
only after a successful walk switch back via
`set_initialize_mode(complexity=saved)`; there is no `try/finally`, so
an exception escaping the walk propagates with the tier still at 3.
Returns the call's outcome together with the final tier. -/
def fromPathByMd5Run (mode0 : Nat) (walk : Nat → PyResult FC) :
    PyResult FC × Nat :=
  match walk 3 with
  | .raised e => (.raised e, 3)
  | .ok fc =>
    match setInitMode mode0 with
    | .raised e => (.raised e, 3)
    | .ok m => (.ok fc, m)

/-- `WinFile.rename(new_dirname, new_fname, new_ext)`.  Arguments are
strings with `[]` standing for an absent or empty (falsy) argument; a
provided `new_dirname` is assumed already absolute (the source passes it
through `os.path.abspath`).  A non-empty `new_ext` not starting with the
separator raises before anything else happens; otherwise `os.rename` is
attempted (its success is the `renameOk` input, failure raising an
`OSError`), and only after it succeeds are the five in-memory fields
assigned. -/
def wrename (w : WinFile) (renameOk : Bool) (nd nf ne : LC) :
    PyResult WinFile :=
  let ndv := if nd = [] then w.dirname else nd
  let nfv := if nf = [] then w.fname else nf
  if ne ≠ [] ∧ ¬ ne.head? = some '.' then .raised .invalidExtensionFormat
  else
    let nev := if ne = [] then w.ext else ne
    let nb := nfv ++ nev
    let na := osJoin ndv nb
    if renameOk then
      .ok { w with abspath := na, dirname := ndv, basename := nb,
                   fname := nfv, ext := nev }
    else .raised .osError

/-- The walk-and-filter loop of `FileCollection.from_path_by_criterion`
(keepboth=False), starting from a fresh empty collection.  The walk
itself (`yield_all_winfile` over the roots) is abstracted as the list of
entities it yields in discovery order.  The criterion may raise
(`none`), which aborts the whole construction - attribute access inside
the source's criteria is not guarded. -/
def criterionLoop (crit : WinFile → Option Bool) :
    List WinFile → List (LC × WinFile) → Option FC
  | [], acc => some { files := acc, order := none }
  | w :: ws, acc =>
    match crit w with
    | none => none
    | some true => criterionLoop crit ws (setdefault acc w.abspath w)
    | some false => criterionLoop crit ws acc

/-- `FileCollection.from_path_by_criterion(path_or_path_list, criterion,
keepboth=False)` over an abstracted walk. -/
def from_path_by_criterion (discovered : List WinFile)
    (crit : WinFile → Option Bool) : Option FC :=
  criterionLoop crit discovered []

/-- The size filter of `FileCollection.from_path_by_size`:
`winfile.size_on_disk >= min_size and winfile.size_on_disk <= max_size`;
accessing the attribute on a fast-tier entity raises. -/
def sizeCrit (minSize maxSize : Int) (w : WinFile) : Option Bool :=
  w.size_on_disk.map (fun s => decide (minSize ≤ s) && decide (s ≤ maxSize))

/-- `FileCollection.from_path_by_size(path_or_path_list, min_size,
max_size)` over an abstracted walk. -/
def from_path_by_size (discovered : List WinFile) (minSize maxSize : Int) :
    Option FC :=
  from_path_by_criterion discovered (sizeCrit minSize maxSize)

/-- `from_path_by_size` with its default bounds `min_size=0,
max_size=1 << 40`. -/
def from_path_by_size_default (discovered : List WinFile) : Option FC :=
  from_path_by_size discovered 0 (Int.ofNat (1 <<< 40))

/-- The extension list of `FileFilter.video`, verbatim from the source
(note the entry `"3gp"` without a leading dot). -/
def videoExts : List LC :=
  [".avi".toList, ".wmv".toList, ".mkv".toList, ".mp4".toList,
   ".flv".toList, ".vob".toList, ".mov".toList, ".rm".toList,
   ".rmvb".toList, "3gp".toList, ".3g2".toList, ".nsv".toList,
   ".webm".toList, ".mpg".toList, ".mpeg".toList, ".m4v".toList,
   ".iso".toList]

/-- The extension list of `FileFilter.archive`, verbatim from the source
(note the entry `".tar.gz"`, a double suffix). -/
def archiveExts : List LC :=
  [".zip".toList, ".rar".toList, ".gz".toList, ".tar.gz".toList,
   ".tgz".toList, ".7z".toList]

/-- `FileFilter.video(winfile)`. -/
def filterVideo (w : WinFile) : Bool := decide (w.ext ∈ videoExts)

/-- `FileFilter.archive(winfile)`. -/
def filterArchive (w : WinFile) : Bool := decide (w.ext ∈ archiveExts)

/-- A concrete entity for witness instantiations: the file `/a/b.txt`
constructed on `anyDisk` under the regular tier. -/
def witFile : WinFile :=
  { abspath := "/a/b.txt".toList, dirname := "/a".toList,
    basename := "b.txt".toList, fname := "b".toList, ext := ".txt".toList,
    size_on_disk := some 0, atime := some 0, ctime := some 0, mtime := some 0,
    md5 := none }

/-- A disk on which no path is a regular file. -/
def noFileDisk : Disk :=
  { isfile := fun _ => false, getsize := fun _ => 0, getatime := fun _ => 0,
    getctime := fun _ => 0, getmtime := fun _ => 0, md5file := fun _ => [] }

/-- A minimal entity used to populate concrete collection states. -/
def stubFile (p : LC) : WinFile :=
  { abspath := p, dirname := [], basename := [], fname := [], ext := [],
    size_on_disk := none, atime := none, ctime := none, mtime := none,
    md5 := none }

/-- A discovered file of size exactly `2^40` bytes. -/
def bigFile : WinFile :=
  { abspath := "/t/big".toList, dirname := "/t".toList,
    basename := "big".toList, fname := "big".toList, ext := [],
    size_on_disk := some (2 ^ 40), atime := some 0, ctime := some 0,
    mtime := some 0, md5 := none }

/-- The left operand for the C2 witness: a one-file collection. -/
def c2A : FC :=
  { files := [("/t/x".toList, stubFile ("/t/x".toList))], order := none }

/-- The right operand for the C2 witness: a one-file collection with a
different path. -/
def c2B : FC :=
  { files := [("/t/y".toList, stubFile ("/t/y".toList))], order := none }

theorem noDoubleSlash_iff (p : LC) :
    noDoubleSlash p = true ↔ List.Chain' (fun a b => ¬(a = '/' ∧ b = '/')) p := by
  induction p with
  | nil => simp [noDoubleSlash]
  | cons a rest ih =>
    cases rest with
    | nil => simp [noDoubleSlash]
    | cons b rs =>
      rw [noDoubleSlash, List.chain'_cons, Bool.and_eq_true, ih]
      simp only [decide_eq_true_eq]

theorem normAbs_iff (p : LC) :
    normAbs p ↔ p.head? = some '/' ∧ p.getLast? ≠ some '/' ∧
      List.Chain' (fun a b => ¬(a = '/' ∧ b = '/')) p := by
  rw [show normAbs p = (normAbsB p = true) from rfl, normAbsB,
    ← noDoubleSlash_iff]
  simp [Bool.and_eq_true, and_assoc]

theorem splitRaw_append (p : LC) : (splitRaw p).1 ++ (splitRaw p).2 = p := by
  induction p with
  | nil => rfl
  | cons c rest ih =>
    by_cases h : ('/' : Char) ∈ rest
    · simp only [splitRaw, if_pos h, List.cons_append, ih]
    · by_cases hc : c = '/'
      · simp [splitRaw, h, hc]
      · simp [splitRaw, h, hc]

theorem slash_not_mem_splitRaw_snd (p : LC) : '/' ∉ (splitRaw p).2 := by
  induction p with
  | nil => simp [splitRaw]
  | cons c rest ih =>
    by_cases h : ('/' : Char) ∈ rest
    · simpa only [splitRaw, if_pos h] using ih
    · by_cases hc : c = '/'
      · simp [splitRaw, h, hc]
      · simp only [splitRaw, if_neg h, if_neg hc]
        intro hmem
        rcases List.mem_cons.mp hmem with h1 | h2
        · exact hc h1.symm
        · exact h h2

theorem splitRaw_fst_ends (p : LC) (hp : '/' ∈ p) :
    ∃ h, (splitRaw p).1 = h ++ ['/'] := by
  induction p with
  | nil => cases hp
  | cons c rest ih =>
    by_cases h : ('/' : Char) ∈ rest
    · obtain ⟨g, hg⟩ := ih h
      exact ⟨c :: g, by simp only [splitRaw, if_pos h, hg, List.cons_append]⟩
    · have hc : c = '/' := by
        rcases List.mem_cons.mp hp with h1 | h2
        · exact h1.symm
        · exact absurd h2 h
      exact ⟨[], by simp [splitRaw, h, hc]⟩

theorem osSplit_join (p : LC) (hp : normAbs p) :
    osJoin (osSplit p).1 (osSplit p).2 = p := by
  obtain ⟨hhead, hlast, hchain⟩ := (normAbs_iff p).mp hp
  have hmem : '/' ∈ p := by
    cases p with
    | nil => simp at hhead
    | cons a q =>
      have ha : a = '/' := by simpa using hhead
      simp [ha]
  obtain ⟨g, hg⟩ := splitRaw_fst_ends p hmem
  have happ : (splitRaw p).1 ++ (splitRaw p).2 = p := splitRaw_append p
  have hslash : '/' ∉ (splitRaw p).2 := slash_not_mem_splitRaw_snd p
  have hpgt : g ++ '/' :: (splitRaw p).2 = p := by
    have h0 : (g ++ ['/']) ++ (splitRaw p).2 = p := by rw [← hg]; exact happ
    simpa using h0
  have htne : (splitRaw p).2 ≠ [] := by
    intro h0
    apply hlast
    rw [← hpgt, h0]
    exact List.getLast?_concat g
  obtain ⟨y, hy⟩ : ∃ y, (splitRaw p).2.head? = some y := by
    cases hcase : (splitRaw p).2 with
    | nil => exact absurd hcase htne
    | cons b bs => exact ⟨b, rfl⟩
  have hyne : y ≠ '/' := by
    intro h0
    apply hslash
    subst h0
    exact List.mem_of_mem_head? hy
  by_cases hgnil : g = []
  · subst hgnil
    have hg1 : (splitRaw p).1 = ['/'] := by simpa using hg
    have hcond : ¬ ((splitRaw p).1 ≠ [] ∧ (splitRaw p).1.any (fun c => c ≠ '/')) := by
      rw [hg1]; simp
    have hsplit : osSplit p = (['/'], (splitRaw p).2) := by
      rw [osSplit, if_neg hcond, hg1]
    rw [hsplit]
    show osJoin ['/'] (splitRaw p).2 = p
    rw [osJoin, if_neg, if_pos]
    · simpa using hpgt
    · right; rfl
    · rw [hy]; simp [hyne]
  · obtain ⟨x, hx⟩ : ∃ x, g.getLast? = some x := by
      cases hcase : g.getLast? with
      | none => exact absurd (List.getLast?_eq_none_iff.mp hcase) hgnil
      | some b => exact ⟨b, rfl⟩
    have hxne : x ≠ '/' := by
      rw [← hpgt] at hchain
      obtain ⟨-, -, hrel⟩ := List.chain'_append.mp hchain
      intro h0
      exact (hrel x hx '/' rfl) ⟨h0, rfl⟩
    have hxg : x ∈ g := by
      obtain ⟨hne, hxeq⟩ := List.mem_getLast?_eq_getLast hx
      rw [hxeq]
      exact List.getLast_mem hne
    have hcond : (splitRaw p).1 ≠ [] ∧ (splitRaw p).1.any (fun c => c ≠ '/') := by
      constructor
      · rw [hg]; simp
      · rw [hg, List.any_eq_true]
        exact ⟨x, by simp [hxg], by simpa using hxne⟩
    have hstrip : rstripSlash (g ++ ['/']) = g := by
      have hrev : (g ++ ['/']).reverse = '/' :: g.reverse := by simp
      rw [rstripSlash, hrev]
      have hdw : ('/' :: g.reverse).dropWhile (fun c => c = '/')
          = g.reverse.dropWhile (fun c => c = '/') := by
        simp [List.dropWhile_cons]
      rw [hdw]
      cases hgr : g.reverse with
      | nil =>
        have : g = [] := by simpa using congrArg List.reverse hgr
        exact absurd this hgnil
      | cons b bs =>
        have hb : b = x := by
          have hh : g.reverse.head? = some b := by rw [hgr]; rfl
          rw [List.head?_reverse, hx] at hh
          exact (Option.some_inj.mp hh).symm
        rw [List.dropWhile_cons, if_neg (by simp [hb, hxne])]
        rw [← hgr, List.reverse_reverse]
    have hsplit : osSplit p = (g, (splitRaw p).2) := by
      rw [osSplit, if_pos hcond, hg, hstrip]
    rw [hsplit]
    show osJoin g (splitRaw p).2 = p
    rw [osJoin, if_neg, if_neg]
    · exact hpgt
    · rw [hx]
      simp [hgnil, hxne]
    · rw [hy]; simp [hyne]

theorem osSplitext_append (p : LC) : (osSplitext p).1 ++ (osSplitext p).2 = p := by
  rw [osSplitext]
  cases rfindIdx '.' p with
  | none => simp
  | some d =>
    simp only
    split
    · exact List.take_append_drop d p
    · simp

theorem rfindIdx_head (c : Char) (l : LC) (i : Nat) (h : rfindIdx c l = some i) :
    (l.drop i).head? = some c := by
  induction l generalizing i with
  | nil => simp [rfindIdx] at h
  | cons x xs ih =>
    rw [rfindIdx] at h
    cases hx : rfindIdx c xs with
    | some j =>
      rw [hx] at h
      have hij : i = j + 1 := by
        have := Option.some_inj.mp h
        omega
      subst hij
      simpa using ih j hx
    | none =>
      rw [hx] at h
      by_cases hxc : x = c
      · rw [if_pos hxc] at h
        have hi : i = 0 := by
          have := Option.some_inj.mp h
          omega
        subst hi
        simp [hxc]
      · rw [if_neg hxc] at h
        cases h

theorem rfindIdx_none_not_mem (c : Char) (l : LC) (h : rfindIdx c l = none) : c ∉ l := by
  induction l with
  | nil => simp
  | cons x xs ih =>
    rw [rfindIdx] at h
    cases hx : rfindIdx c xs with
    | some j => rw [hx] at h; cases h
    | none =>
      rw [hx] at h
      intro hmem
      rcases List.mem_cons.mp hmem with h1 | h2
      · rw [if_pos h1.symm] at h; cases h
      · exact ih hx h2

theorem rfindIdx_last (c : Char) (l : LC) (i : Nat) (h : rfindIdx c l = some i) :
    c ∉ l.drop (i + 1) := by
  induction l generalizing i with
  | nil => simp [rfindIdx] at h
  | cons x xs ih =>
    rw [rfindIdx] at h
    cases hx : rfindIdx c xs with
    | some j =>
      rw [hx] at h
      have hij : i = j + 1 := by
        have := Option.some_inj.mp h
        omega
      subst hij
      simpa using ih j hx
    | none =>
      rw [hx] at h
      by_cases hxc : x = c
      · rw [if_pos hxc] at h
        have hi : i = 0 := by
          have := Option.some_inj.mp h
          omega
        subst hi
        simpa using rfindIdx_none_not_mem c xs hx
      · rw [if_neg hxc] at h
        cases h

/-- Structure of the extension produced by `os.path.splitext`: it is
either empty or starts with the dot and contains no further dot. -/
theorem osSplitext_snd_struct (p : LC) :
    (osSplitext p).2 = [] ∨
      ((osSplitext p).2.head? = some '.' ∧ '.' ∉ (osSplitext p).2.drop 1) := by
  rw [osSplitext]
  cases hd : rfindIdx '.' p with
  | none => left; rfl
  | some d =>
    simp only
    split
    · right
      constructor
      · exact rfindIdx_head '.' p d hd
      · have := rfindIdx_last '.' p d hd
        simpa using this
    · left; rfl

theorem tlookup_mem (c v : Char) (t : List (Char × Char)) (h : tlookup c t = some v) :
    (c, v) ∈ t := by
  induction t with
  | nil => cases h
  | cons kv rest ih =>
    obtain ⟨k, w⟩ := kv
    rw [tlookup] at h
    by_cases hc : c = k
    · rw [if_pos hc] at h
      have := Option.some_inj.mp h
      simp [hc, this]
    · rw [if_neg hc] at h
      exact List.mem_cons_of_mem _ (ih h)

/-- Lower-casing maps a character to `'.'` only if it already was `'.'`. -/
theorem pyToLower_eq_dot_iff (c : Char) : pyToLower c = '.' ↔ c = '.' := by
  constructor
  · intro h
    rw [pyToLower] at h
    cases hl : tlookup c upperLowerTable with
    | none => rw [hl] at h; simpa using h
    | some v =>
      rw [hl] at h
      simp only [Option.getD_some] at h
      have hmem := tlookup_mem c v upperLowerTable hl
      subst h
      have : ∀ kv ∈ upperLowerTable, kv.2 ≠ '.' := by decide
      exact absurd rfl (this _ hmem)
  · intro h
    subst h
    decide

theorem pyLower_head_dot (s : LC) (h : s.head? = some '.') :
    (pyLower s).head? = some '.' := by
  cases s with
  | nil => cases h
  | cons a rest =>
    have ha : a = '.' := by simpa using h
    subst ha
    simp [pyLower, pyToLower]
    decide

theorem pyLower_tail_no_dot (s : LC) (h : '.' ∉ s.drop 1) :
    '.' ∉ (pyLower s).drop 1 := by
  intro hmem
  apply h
  rw [pyLower, ← List.map_drop] at hmem
  obtain ⟨c, hc, hlc⟩ := List.mem_map.mp hmem
  have : c = '.' := (pyToLower_eq_dot_iff c).mp hlc
  rw [← this]
  exact hc

theorem mkWinFile_fields (d : Disk) (mode : Nat) (p : LC) (w : WinFile)
    (hmk : mkWinFile d mode p = some w) :
    w.abspath = p ∧ w.dirname = (osSplit p).1 ∧ w.basename = (osSplit p).2 ∧
      w.fname = (osSplitext (osSplit p).2).1 ∧
      w.ext = pyLower (osSplitext (osSplit p).2).2 := by
  rw [mkWinFile] at hmk
  split at hmk
  · have hw := Option.some_inj.mp hmk
    subst hw
    split
    · exact ⟨rfl, rfl, rfl, rfl, rfl⟩
    · split
      · exact ⟨rfl, rfl, rfl, rfl, rfl⟩
      · exact ⟨rfl, rfl, rfl, rfl, rfl⟩
  · cases hmk

/-- C1 (amended).  For every existing regular file (any initialization
tier), the constructed entity satisfies `absolute_path =
parent_directory joined with full_name`, and its `full_name` decomposes
as `name ++ e` where the stored extension is the lower-casing of the
original suffix `e`.  The claim's `full_name = name + extension`
only holds when the suffix is already lower-case (see the
counterexample); the lower-cased extension never re-enters `full_name`. -/
theorem c1_entity_path_invariants (d : Disk) (mode : Nat) (p : LC) (w : WinFile)
    (hnorm : normAbs p) (hmk : mkWinFile d mode p = some w) :
    w.abspath = p ∧ osJoin w.dirname w.basename = p ∧
      ∃ e, w.basename = w.fname ++ e ∧ w.ext = pyLower e := by
  obtain ⟨h1, h2, h3, h4, h5⟩ := mkWinFile_fields d mode p w hmk
  refine ⟨h1, ?_, ⟨(osSplitext (osSplit p).2).2, ?_, ?_⟩⟩
  · rw [h2, h3]
    exact osSplit_join p hnorm
  · rw [h3, h4]
    exact (osSplitext_append (osSplit p).2).symm
  · rw [h5]

/-- C1, witness: the theorem applied to the concrete file `/a/b.txt`. -/
theorem c1_entity_path_invariants_witness :
    witFile.abspath = "/a/b.txt".toList ∧
      osJoin witFile.dirname witFile.basename = "/a/b.txt".toList ∧
      ∃ e, witFile.basename = witFile.fname ++ e ∧ witFile.ext = pyLower e :=
  c1_entity_path_invariants anyDisk 2 ("/a/b.txt".toList) witFile
    (by decide) (by decide)

/-- C1, counterexample: for the existing regular file `/a/X.JPG` the
constructed entity (regular tier) has `name ++ extension = "X.jpg"`
while `full_name = "X.JPG"`, so `full_name = name + extension` is false:
the extension field is lower-cased but `full_name` keeps the original
case. -/
theorem c1_counterexample :
    (mkWinFile anyDisk 2 ("/a/X.JPG".toList)).map
        (fun w => (w.fname ++ w.ext, w.basename))
      = some ("X.jpg".toList, "X.JPG".toList) ∧
    ("X.jpg".toList : LC) ≠ "X.JPG".toList := by
  constructor
  · decide
  · decide

/-- C10.  Every constructed entity's extension field is empty or starts
with the separator and contains no second dot; hence it can never equal
the dot-less entry `"3gp"` of `FileFilter.video` nor the double-suffix
entry `".tar.gz"` of `FileFilter.archive`, although both entries are in
those lists; concretely, `x.tar.gz` gets extension `.gz` and `x.3gp`
gets `.3gp` (and is not matched by the video filter). -/
theorem c10_dead_filter_entries :
    (∀ (d : Disk) (mode : Nat) (p : LC) (w : WinFile),
        mkWinFile d mode p = some w →
          (w.ext = [] ∨ (w.ext.head? = some '.' ∧ '.' ∉ w.ext.drop 1)) ∧
          w.ext ≠ "3gp".toList ∧ w.ext ≠ ".tar.gz".toList) ∧
    "3gp".toList ∈ videoExts ∧ ".tar.gz".toList ∈ archiveExts ∧
    (mkWinFile anyDisk 2 ("/a/x.tar.gz".toList)).map WinFile.ext
      = some ".gz".toList ∧
    (mkWinFile anyDisk 2 ("/a/x.3gp".toList)).map WinFile.ext
      = some ".3gp".toList ∧
    (mkWinFile anyDisk 2 ("/a/x.3gp".toList)).map filterVideo = some false := by
  refine ⟨?_, by decide, by decide, by decide, by decide, by decide⟩
  intro d mode p w hmk
  obtain ⟨-, -, -, -, h5⟩ := mkWinFile_fields d mode p w hmk
  have hshape : w.ext = [] ∨ (w.ext.head? = some '.' ∧ '.' ∉ w.ext.drop 1) := by
    rcases osSplitext_snd_struct (osSplit p).2 with hnil | ⟨hhd, htl⟩
    · left
      rw [h5, hnil]
      rfl
    · right
      rw [h5]
      exact ⟨pyLower_head_dot _ hhd, pyLower_tail_no_dot _ htl⟩
  refine ⟨hshape, ?_, ?_⟩
  · intro heq
    rcases hshape with hnil | ⟨hhd, -⟩
    · rw [heq] at hnil
      cases hnil
    · rw [heq] at hhd
      cases hhd
  · intro heq
    rcases hshape with hnil | ⟨-, htl⟩
    · rw [heq] at hnil
      cases hnil
    · rw [heq] at htl
      exact htl (by decide)

/-- C10, witness: the general conjunct applied to the concrete file
`/a/b.txt`. -/
theorem c10_dead_filter_entries_witness :
    (witFile.ext = [] ∨ (witFile.ext.head? = some '.' ∧ '.' ∉ witFile.ext.drop 1)) ∧
      witFile.ext ≠ "3gp".toList ∧ witFile.ext ≠ ".tar.gz".toList :=
  c10_dead_filter_entries.1 anyDisk 2 ("/a/b.txt".toList) witFile (by decide)

/-- C7.  `WinFile.rename` is atomic for the in-memory record: a
non-empty extension argument lacking the leading separator raises
`InvalidExtensionFormat` whatever the disk would do (no disk operation
and no field update happens); with a well-formed extension argument a
failing `os.rename` raises and no field changes; and on disk success
all five path fields are updated consistently while the stat fields are
untouched. -/
theorem c7_rename_atomic (w : WinFile) (renameOk : Bool) (nd nf ne : LC) :
    (ne ≠ [] → ¬ ne.head? = some '.' →
      wrename w renameOk nd nf ne = .raised .invalidExtensionFormat) ∧
    ((ne = [] ∨ ne.head? = some '.') →
      wrename w false nd nf ne = .raised .osError) ∧
    ((ne = [] ∨ ne.head? = some '.') → ∃ w2,
      wrename w true nd nf ne = .ok w2 ∧
      w2.dirname = (if nd = [] then w.dirname else nd) ∧
      w2.fname = (if nf = [] then w.fname else nf) ∧
      w2.ext = (if ne = [] then w.ext else ne) ∧
      w2.basename = w2.fname ++ w2.ext ∧
      w2.abspath = osJoin w2.dirname w2.basename ∧
      w2.size_on_disk = w.size_on_disk ∧ w2.atime = w.atime ∧
      w2.ctime = w.ctime ∧ w2.mtime = w.mtime ∧ w2.md5 = w.md5) := by
  have hc : ∀ h : ne = [] ∨ ne.head? = some '.',
      ¬ (ne ≠ [] ∧ ¬ ne.head? = some '.') := by
    intro h hcontra
    rcases h with h | h
    · exact hcontra.1 h
    · exact hcontra.2 h
  refine ⟨?_, ?_, ?_⟩
  · intro h1 h2
    rw [wrename, if_pos ⟨h1, h2⟩]
  · intro h
    simp only [wrename, if_neg (hc h)]
    rfl
  · intro h
    refine ⟨{ w with
        abspath := osJoin (if nd = [] then w.dirname else nd)
          ((if nf = [] then w.fname else nf) ++ (if ne = [] then w.ext else ne)),
        dirname := if nd = [] then w.dirname else nd,
        basename := (if nf = [] then w.fname else nf)
          ++ (if ne = [] then w.ext else ne),
        fname := if nf = [] then w.fname else nf,
        ext := if ne = [] then w.ext else ne },
      ?_, rfl, rfl, rfl, rfl, rfl, rfl, rfl, rfl, rfl, rfl⟩
    simp only [wrename, if_neg (hc h)]
    rfl

/-- C7, witness: renaming the extension of `/a/b.txt` to the malformed
`"txt"` raises `InvalidExtensionFormat` even though the disk rename
would have succeeded. -/
theorem c7_rename_atomic_witness :
    wrename witFile true [] [] ("txt".toList) = .raised .invalidExtensionFormat :=
  (c7_rename_atomic witFile true [] [] ("txt".toList)).1 (by decide) (by decide)

/-- C5 (amended).  `from_path_by_md5` runs its walk under the slow tier
and restores the saved tier after a successful walk - including a walk
that selected zero entities; but when the walk raises, the exception
propagates before `set_initialize_mode` runs and the process-wide tier
stays at 3. -/
theorem c5_md5_tier_restore (mode0 : Nat) (walk : Nat → PyResult FC)
    (hmode : mode0 = 1 ∨ mode0 = 2 ∨ mode0 = 3) :
    (∀ fc, walk 3 = .ok fc → fromPathByMd5Run mode0 walk = (.ok fc, mode0)) ∧
    (∀ e, walk 3 = .raised e → fromPathByMd5Run mode0 walk = (.raised e, 3)) := by
  constructor
  · intro fc hw
    simp only [fromPathByMd5Run, hw]
    rcases hmode with h | h | h <;> subst h <;> rfl
  · intro e hw
    simp only [fromPathByMd5Run, hw]

/-- C5, witness: the success case at prior tier 2 with a walk returning
an empty collection (zero matches). -/
theorem c5_md5_tier_restore_witness :
    fromPathByMd5Run 2 (fun _ => .ok { files := [], order := none })
      = (.ok { files := [], order := none }, 2) :=
  (c5_md5_tier_restore 2 (fun _ => .ok { files := [], order := none })
    (Or.inr (Or.inl rfl))).1 { files := [], order := none } rfl

/-- C5, counterexample: with prior tier 2 and a walk that raises, the
call exits with the process-wide tier still at 3 - the prior tier is
not restored on the exceptional exit path. -/
theorem c5_counterexample :
    fromPathByMd5Run 2 (fun _ => .raised .osError) = (.raised .osError, 3) ∧
      (3 : Nat) ≠ 2 := by
  constructor
  · rfl
  · decide

theorem pathsOf_nil : pathsOf ([] : List (LC × WinFile)) = [] := rfl

theorem pathsOf_cons (k2 : LC) (w : WinFile) (rest : List (LC × WinFile)) :
    pathsOf ((k2, w) :: rest) = k2 :: pathsOf rest := rfl

theorem pathsOf_append (fs gs : List (LC × WinFile)) :
    pathsOf (fs ++ gs) = pathsOf fs ++ pathsOf gs := by
  simp [pathsOf]

theorem alookup_eq_none_iff (k : LC) (fs : List (LC × WinFile)) :
    alookup k fs = none ↔ k ∉ pathsOf fs := by
  induction fs with
  | nil =>
    rw [pathsOf_nil]
    simp [alookup]
  | cons kw rest ih =>
    obtain ⟨k2, w⟩ := kw
    rw [pathsOf_cons]
    by_cases hk : k = k2
    · subst hk
      rw [alookup, if_pos rfl]
      simp
    · rw [alookup, if_neg hk, ih]
      simp [hk]

theorem ddel_eq_none_iff (k : LC) (fs : List (LC × WinFile)) :
    ddel k fs = none ↔ k ∉ pathsOf fs := by
  induction fs with
  | nil =>
    rw [pathsOf_nil]
    simp [ddel]
  | cons kw rest ih =>
    obtain ⟨k2, w⟩ := kw
    rw [pathsOf_cons]
    by_cases hk : k = k2
    · subst hk
      rw [ddel, if_pos rfl]
      simp
    · rw [ddel, if_neg hk]
      cases hcase : ddel k rest with
      | none =>
        rw [hcase] at ih
        simp only [Option.map_none']
        rw [List.mem_cons, not_or]
        constructor
        · intro _
          exact ⟨hk, ih.mp rfl⟩
        · intro _
          trivial
      | some r =>
        rw [hcase] at ih
        simp only [Option.map_some']
        rw [List.mem_cons, not_or]
        constructor
        · intro hcontra
          cases hcontra
        · rintro ⟨-, hmem⟩
          exfalso
          have : (some r : Option (List (LC × WinFile))) = none := ih.mpr hmem
          cases this

theorem mkWinFile_isfile_false (d : Disk) (mode : Nat) (p : LC)
    (h : d.isfile p = false) : mkWinFile d mode p = none := by
  rw [mkWinFile, if_neg]
  simp [h]

theorem mkWinFile_isfile_true (d : Disk) (mode : Nat) (p : LC)
    (h : d.isfile p = true) : ∃ w, mkWinFile d mode p = some w := by
  rw [mkWinFile, if_pos h]
  exact ⟨_, rfl⟩

/-- C6 (amended).  `remove` of an argument whose absolute path is not a
member of the collection leaves the collection unchanged and merely
reports the absence - when the argument is a `WinFile` instance, or a
path naming an existing regular file.  A path argument that does not
name an existing regular file raises `EnvironmentError` inside the
`WinFile` construction, before the collection is consulted. -/
theorem c6_remove_absent (d : Disk) (mode : Nat) (fc : FC) :
    (∀ w : WinFile, w.abspath ∉ pathsOf fc.files →
        fcRemove d mode fc (.entity w) = .ok (fc, true)) ∧
    (∀ p : LC, d.isfile p = true → p ∉ pathsOf fc.files →
        fcRemove d mode fc (.path p) = .ok (fc, true)) ∧
    (∀ p : LC, d.isfile p = false →
        fcRemove d mode fc (.path p) = .raised .notAFile) := by
  refine ⟨?_, ?_, ?_⟩
  · intro w hmem
    show removeKey fc w.abspath = .ok (fc, true)
    rw [removeKey, (ddel_eq_none_iff w.abspath fc.files).mpr hmem]
  · intro p hfile hmem
    obtain ⟨w, hw⟩ := mkWinFile_isfile_true d mode p hfile
    have habs : w.abspath = p := (mkWinFile_fields d mode p w hw).1
    show (match mkWinFile d mode p with
      | none => PyResult.raised PyErr.notAFile
      | some w => removeKey fc w.abspath) = .ok (fc, true)
    rw [hw]
    show removeKey fc w.abspath = .ok (fc, true)
    rw [habs, removeKey, (ddel_eq_none_iff p fc.files).mpr hmem]
  · intro p hfile
    show (match mkWinFile d mode p with
      | none => PyResult.raised PyErr.notAFile
      | some w => removeKey fc w.abspath) = .raised .notAFile
    rw [mkWinFile_isfile_false d mode p hfile]

/-- C6, witness: removing the entity for `/a/b.txt` (not a member) from
the empty collection reports the absence and changes nothing. -/
theorem c6_remove_absent_witness :
    fcRemove anyDisk 2 { files := [], order := none } (.entity witFile)
      = .ok ({ files := [], order := none }, true) :=
  (c6_remove_absent anyDisk 2 { files := [], order := none }).1 witFile
    (by decide)

/-- C6, counterexample: removing, from the empty collection, a path
that is not an existing regular file raises `EnvironmentError` out of
the `WinFile` construction - `remove` of an absent path is not always
a reported no-op. -/
theorem c6_counterexample :
    fcRemove noFileDisk 2 { files := [], order := none }
        (.path ("/a/gone.txt".toList))
      = .raised .notAFile := by
  decide

theorem collectAttrs_eq_none (a : String) (fs : List (LC × WinFile))
    (h : ∃ kw ∈ fs, pygetattr kw.2 a = none) : collectAttrs a fs = none := by
  induction fs with
  | nil =>
    obtain ⟨kw, hmem, -⟩ := h
    cases hmem
  | cons kv rest ih =>
    obtain ⟨k, w⟩ := kv
    rw [collectAttrs]
    obtain ⟨kw, hmem, hnone⟩ := h
    rcases List.mem_cons.mp hmem with h1 | h2
    · subst h1
      rw [hnone]
    · cases hp : pygetattr w a with
      | none => rfl
      | some v =>
        rw [ih ⟨kw, h2, hnone⟩]
        rfl

/-- C8 (amended).  When some member entity lacks the requested attribute
(an unknown name, or a slot the entity's initialization tier left
unset), `sort_by` raises `NotSortable` and the collection - in
particular any explicit order from a prior successful sort - is
unchanged.  On an empty collection, however, `sort_by` succeeds for
every attribute name and resets the explicit order to the empty list
(see the counterexample). -/
theorem c8_sort_by_missing_attribute (fc : FC) (a : String) (reverse : Bool)
    (h : ∃ kw ∈ fc.files, pygetattr kw.2 a = none) :
    sort_by fc a reverse = (some .notSortable, fc) := by
  rw [sort_by, collectAttrs_eq_none a fc.files h]

/-- C8, witness: sorting a one-element collection by `md5` when the
entity was built under the regular tier (md5 slot unset) raises
`NotSortable` and leaves the state - including the prior explicit
order - unchanged. -/
theorem c8_sort_by_missing_attribute_witness :
    sort_by { files := [("/a/b.txt".toList, witFile)],
              order := some ["/a/b.txt".toList] } "md5" false
      = (some .notSortable,
         { files := [("/a/b.txt".toList, witFile)],
           order := some ["/a/b.txt".toList] }) :=
  c8_sort_by_missing_attribute
    { files := [("/a/b.txt".toList, witFile)],
      order := some ["/a/b.txt".toList] } "md5" false
    ⟨("/a/b.txt".toList, witFile), by decide, by decide⟩

/-- C8, counterexample: on an empty collection, `sort_by` with an
attribute name that no entity could ever carry does not raise and
overwrites the prior explicit order with the empty list - the
`AttributeError` branch is reached only when `getattr` runs on some
member. -/
theorem c8_counterexample :
    sort_by { files := [], order := some ["/a/b.txt".toList] } "bogus" false
        = (none, { files := [], order := some [] }) ∧
      some ([] : List LC) ≠ some ["/a/b.txt".toList] := by
  constructor
  · rfl
  · decide

theorem iterfilesOrd_all_present (fs : List (LC × WinFile)) (ord : List LC)
    (h : ∀ q ∈ ord, (alookup q fs).isSome) :
    iterfilesOrd fs ord = ord.filterMap (fun q => alookup q fs) := by
  induction ord with
  | nil => rfl
  | cons q qs ih =>
    have hq : (alookup q fs).isSome := h q (List.mem_cons_self q qs)
    obtain ⟨w, hw⟩ := Option.isSome_iff_exists.mp hq
    rw [iterfilesOrd, hw, List.filterMap_cons, hw]
    rw [ih (fun r hr => h r (List.mem_cons_of_mem q hr))]

theorem iterfilesOrd_stale (fs : List (LC × WinFile)) (pre suf : List LC)
    (p : LC) (hpre : ∀ q ∈ pre, (alookup q fs).isSome)
    (hp : alookup p fs = none) :
    iterfilesOrd fs (pre ++ p :: suf)
      = pre.filterMap (fun q => alookup q fs) ++ fs.map Prod.snd := by
  induction pre with
  | nil =>
    rw [List.nil_append, iterfilesOrd, hp, List.filterMap_nil, List.nil_append]
  | cons q qs ih =>
    have hq : (alookup q fs).isSome := hpre q (List.mem_cons_self q qs)
    obtain ⟨w, hw⟩ := Option.isSome_iff_exists.mp hq
    rw [List.cons_append, iterfilesOrd, hw, List.filterMap_cons, hw]
    rw [ih (fun r hr => hpre r (List.mem_cons_of_mem q hr))]
    rfl

/-- C4 (amended).  With an explicit order in place: the path iterator
yields the stored order verbatim, including paths no longer in the
collection; the entity iterator yields the entities of the order's
prefix of still-present paths and then, upon the first removed path,
falls into the bare `except` branch and yields every current member
again - so members before the stale entry are yielded twice and
removed paths are not silently skipped.  Only when every ordered path
is still present does iteration honor the order one entity per path. -/
theorem c4_stale_order_iteration (fs : List (LC × WinFile))
    (pre suf : List LC) (p : LC)
    (hpre : ∀ q ∈ pre, (alookup q fs).isSome)
    (hp : alookup p fs = none) :
    iterpaths { files := fs, order := some (pre ++ p :: suf) }
        = pre ++ p :: suf ∧
    iterfiles { files := fs, order := some (pre ++ p :: suf) }
        = pre.filterMap (fun q => alookup q fs) ++ fs.map Prod.snd ∧
    (∀ ord2, (∀ q ∈ ord2, (alookup q fs).isSome) →
        iterfiles { files := fs, order := some ord2 }
          = ord2.filterMap (fun q => alookup q fs)) := by
  refine ⟨rfl, ?_, ?_⟩
  · show iterfilesOrd fs (pre ++ p :: suf) = _
    exact iterfilesOrd_stale fs pre suf p hpre hp
  · intro ord2 h2
    show iterfilesOrd fs ord2 = _
    exact iterfilesOrd_all_present fs ord2 h2

/-- C4, witness: the theorem applied to the concrete collection holding
`/t/a` and `/t/c` whose stale order still references the removed
`/t/b`. -/
theorem c4_stale_order_iteration_witness :
    iterpaths { files := [("/t/a".toList, stubFile ("/t/a".toList)),
                          ("/t/c".toList, stubFile ("/t/c".toList))],
                order := some ["/t/a".toList, "/t/b".toList, "/t/c".toList] }
        = ["/t/a".toList] ++ "/t/b".toList :: ["/t/c".toList] ∧
    iterfiles { files := [("/t/a".toList, stubFile ("/t/a".toList)),
                          ("/t/c".toList, stubFile ("/t/c".toList))],
                order := some ["/t/a".toList, "/t/b".toList, "/t/c".toList] }
        = (["/t/a".toList]).filterMap
            (fun q => alookup q [("/t/a".toList, stubFile ("/t/a".toList)),
                                 ("/t/c".toList, stubFile ("/t/c".toList))])
          ++ [("/t/a".toList, stubFile ("/t/a".toList)),
              ("/t/c".toList, stubFile ("/t/c".toList))].map Prod.snd ∧
    (∀ ord2, (∀ q ∈ ord2,
        (alookup q [("/t/a".toList, stubFile ("/t/a".toList)),
                    ("/t/c".toList, stubFile ("/t/c".toList))]).isSome) →
      iterfiles { files := [("/t/a".toList, stubFile ("/t/a".toList)),
                            ("/t/c".toList, stubFile ("/t/c".toList))],
                  order := some ord2 }
        = ord2.filterMap
            (fun q => alookup q [("/t/a".toList, stubFile ("/t/a".toList)),
                                 ("/t/c".toList, stubFile ("/t/c".toList))])) :=
  c4_stale_order_iteration
    [("/t/a".toList, stubFile ("/t/a".toList)),
     ("/t/c".toList, stubFile ("/t/c".toList))]
    ["/t/a".toList] ["/t/c".toList] ("/t/b".toList)
    (by decide) (by decide)

/-- C4, counterexample: on that same collection the entity iterator
yields the entity of `/t/a` twice (not exactly once), and the path
iterator yields the absent path `/t/b` - stale entries are not skipped
gracefully. -/
theorem c4_counterexample :
    iterfiles { files := [("/t/a".toList, stubFile ("/t/a".toList)),
                          ("/t/c".toList, stubFile ("/t/c".toList))],
                order := some ["/t/a".toList, "/t/b".toList, "/t/c".toList] }
        = [stubFile ("/t/a".toList), stubFile ("/t/a".toList),
           stubFile ("/t/c".toList)] ∧
    iterpaths { files := [("/t/a".toList, stubFile ("/t/a".toList)),
                          ("/t/c".toList, stubFile ("/t/c".toList))],
                order := some ["/t/a".toList, "/t/b".toList, "/t/c".toList] }
        = ["/t/a".toList, "/t/b".toList, "/t/c".toList] ∧
    "/t/b".toList ∉ pathsOf [("/t/a".toList, stubFile ("/t/a".toList)),
                             ("/t/c".toList, stubFile ("/t/c".toList))] := by
  refine ⟨by decide, by decide, by decide⟩

theorem mem_pathsOf_setdefault (fs : List (LC × WinFile)) (k : LC)
    (w : WinFile) (p : LC) :
    p ∈ pathsOf (setdefault fs k w) ↔ p ∈ pathsOf fs ∨ p = k := by
  rw [setdefault]
  cases hl : alookup k fs with
  | some v =>
    have hk : k ∈ pathsOf fs := by
      by_contra hnot
      rw [(alookup_eq_none_iff k fs).mpr hnot] at hl
      cases hl
    constructor
    · intro hmem
      exact Or.inl hmem
    · rintro (hmem | hpk)
      · exact hmem
      · rw [hpk]; exact hk
  | none =>
    rw [pathsOf_append, List.mem_append]
    simp only [pathsOf_cons, pathsOf_nil, List.mem_singleton]

theorem criterionLoop_spec (crit : WinFile → Option Bool) (ws : List WinFile)
    (acc : List (LC × WinFile)) (h : ∀ w ∈ ws, (crit w).isSome) :
    ∃ fc, criterionLoop crit ws acc = some fc ∧ fc.order = none ∧
      ∀ p, p ∈ pathsOf fc.files ↔
        (p ∈ pathsOf acc ∨ ∃ w ∈ ws, w.abspath = p ∧ crit w = some true) := by
  induction ws generalizing acc with
  | nil =>
    refine ⟨{ files := acc, order := none }, rfl, rfl, ?_⟩
    intro p
    simp
  | cons w ws ih =>
    have hw : (crit w).isSome := h w (List.mem_cons_self w ws)
    have hrest : ∀ v ∈ ws, (crit v).isSome :=
      fun v hv => h v (List.mem_cons_of_mem w hv)
    obtain ⟨b, hb⟩ := Option.isSome_iff_exists.mp hw
    cases b with
    | true =>
      obtain ⟨fc, hrun, hord, hiff⟩ := ih (setdefault acc w.abspath w) hrest
      refine ⟨fc, ?_, hord, ?_⟩
      · rw [criterionLoop, hb]
        exact hrun
      · intro p
        rw [hiff p, mem_pathsOf_setdefault]
        constructor
        · rintro ((hacc | hpw) | ⟨v, hv, habs, hcrit⟩)
          · exact Or.inl hacc
          · exact Or.inr ⟨w, List.mem_cons_self w ws, hpw.symm, hb⟩
          · exact Or.inr ⟨v, List.mem_cons_of_mem w hv, habs, hcrit⟩
        · rintro (hacc | ⟨v, hv, habs, hcrit⟩)
          · exact Or.inl (Or.inl hacc)
          · rcases List.mem_cons.mp hv with h1 | h2
            · subst h1
              exact Or.inl (Or.inr habs.symm)
            · exact Or.inr ⟨v, h2, habs, hcrit⟩
    | false =>
      obtain ⟨fc, hrun, hord, hiff⟩ := ih acc hrest
      refine ⟨fc, ?_, hord, ?_⟩
      · rw [criterionLoop, hb]
        exact hrun
      · intro p
        rw [hiff p]
        constructor
        · rintro (hacc | ⟨v, hv, habs, hcrit⟩)
          · exact Or.inl hacc
          · exact Or.inr ⟨v, List.mem_cons_of_mem w hv, habs, hcrit⟩
        · rintro (hacc | ⟨v, hv, habs, hcrit⟩)
          · exact Or.inl hacc
          · rcases List.mem_cons.mp hv with h1 | h2
            · subst h1
              rw [hb] at hcrit
              cases hcrit
            · exact Or.inr ⟨v, h2, habs, hcrit⟩

theorem sizeCrit_some_true_iff (mn mx : Int) (w : WinFile) :
    sizeCrit mn mx w = some true ↔
      ∃ s, w.size_on_disk = some s ∧ mn ≤ s ∧ s ≤ mx := by
  rw [sizeCrit]
  cases hs : w.size_on_disk with
  | none => simp
  | some s => simp [Bool.and_eq_true]

/-- C9 (amended).  The size factory selects exactly the discovered files
whose size satisfies `min_size ≤ size ≤ max_size` (sizes must be
present - the walk constructs entities under a stat-performing tier);
its default bounds are `min_size = 0` and `max_size = 1 << 40 = 2^40`,
an inclusive bound: a file of size exactly `2^40` bytes IS selected
under the defaults (the claim's `2^40 - 1` is off by one, see the
counterexample). -/
theorem c9_from_path_by_size (discovered : List WinFile) (mn mx : Int)
    (h : ∀ w ∈ discovered, w.size_on_disk.isSome) :
    (∃ fc, from_path_by_size discovered mn mx = some fc ∧ fc.order = none ∧
      ∀ p, p ∈ pathsOf fc.files ↔
        ∃ w ∈ discovered, w.abspath = p ∧
          ∃ s, w.size_on_disk = some s ∧ mn ≤ s ∧ s ≤ mx) ∧
    from_path_by_size_default discovered
      = from_path_by_size discovered 0 (2 ^ 40) := by
  constructor
  · have hsome : ∀ w ∈ discovered, (sizeCrit mn mx w).isSome := by
      intro w hw
      rw [sizeCrit, Option.isSome_map']
      exact h w hw
    obtain ⟨fc, hrun, hord, hiff⟩ :=
      criterionLoop_spec (sizeCrit mn mx) discovered [] hsome
    refine ⟨fc, hrun, hord, ?_⟩
    intro p
    rw [hiff p]
    constructor
    · rintro (hfalse | ⟨w, hw, habs, hcrit⟩)
      · rw [pathsOf_nil] at hfalse
        cases hfalse
      · exact ⟨w, hw, habs, (sizeCrit_some_true_iff mn mx w).mp hcrit⟩
    · rintro ⟨w, hw, habs, s, hs, h1, h2⟩
      exact Or.inr ⟨w, hw, habs,
        (sizeCrit_some_true_iff mn mx w).mpr ⟨s, hs, h1, h2⟩⟩
  · rw [from_path_by_size_default]
    have : Int.ofNat (1 <<< 40) = (2 : Int) ^ 40 := by decide
    rw [this]

/-- C9, counterexample: under the default bounds the walk that discovers
only `bigFile` (size `2^40`) selects it - contradicting the claim that
the default upper bound is `2^40 - 1` and that a file of `2^40` bytes
is not selected. -/
theorem c9_counterexample :
    from_path_by_size_default [bigFile]
        = some { files := [("/t/big".toList, bigFile)], order := none } ∧
      bigFile.size_on_disk = some (2 ^ 40) := by
  constructor
  · decide
  · rfl

/-- C9, witness: the theorem applied to the one-file walk with bounds
0 and 100 (which excludes `bigFile`). -/
theorem c9_from_path_by_size_witness :
    (∃ fc, from_path_by_size [bigFile] 0 100 = some fc ∧ fc.order = none ∧
      ∀ p, p ∈ pathsOf fc.files ↔
        ∃ w ∈ [bigFile], w.abspath = p ∧
          ∃ s, w.size_on_disk = some s ∧ 0 ≤ s ∧ s ≤ 100) ∧
    from_path_by_size_default [bigFile]
      = from_path_by_size [bigFile] 0 (2 ^ 40) :=
  c9_from_path_by_size [bigFile] 0 100 (by decide)

theorem sizeLoop_step (size idx : Nat) (h : size / 1024 < 1024) :
    sizeLoop size idx = (idx + 1, size / 1024, size % 1024) := by
  rw [sizeLoop, if_pos h]

theorem sizeLoop_rec (size idx : Nat) (h : ¬ size / 1024 < 1024) :
    sizeLoop size idx = sizeLoop (size / 1024) (idx + 1) := by
  conv_lhs => rw [sizeLoop]
  rw [if_neg h]

theorem sizeLoop_spec (size : Nat) (hs : 1024 ≤ size) : ∀ idx : Nat,
    ∃ k, 1 ≤ k ∧
      sizeLoop size idx
        = (idx + k, size / 1024 ^ k, size / 1024 ^ (k - 1) % 1024) ∧
      1024 ≤ size / 1024 ^ (k - 1) ∧ size / 1024 ^ k < 1024 := by
  induction size using Nat.strong_induction_on with
  | _ size ih =>
    intro idx
    have hdiv : ∀ j : Nat, size / 1024 / 1024 ^ j = size / 1024 ^ (j + 1) := by
      intro j
      rw [Nat.div_div_eq_div_mul]
      congr 1
      rw [pow_succ, mul_comm]
    by_cases hq : size / 1024 < 1024
    · refine ⟨1, le_refl 1, ?_, ?_, ?_⟩
      · rw [sizeLoop_step size idx hq]
        norm_num
      · simpa using hs
      · simpa using hq
    · have hge : 1024 ≤ size / 1024 := Nat.le_of_not_lt hq
      have hlt : size / 1024 < size := Nat.div_lt_self (by omega) (by norm_num)
      obtain ⟨k2, hk1, heq, hlow, hhigh⟩ := ih (size / 1024) hlt hge (idx + 1)
      have h2 : k2 - 1 + 1 = k2 := by omega
      refine ⟨k2 + 1, by omega, ?_, ?_, ?_⟩
      · rw [sizeLoop_rec size idx hq, heq, hdiv k2, hdiv (k2 - 1), h2]
        have h1 : idx + 1 + k2 = idx + (k2 + 1) := by omega
        rw [h1]
        simp
      · have := hlow
        rw [hdiv (k2 - 1), h2] at this
        simpa using this
      · have := hhigh
        rw [hdiv k2] at this
        exact this

theorem pow_le_of_div_ge (n b : Nat) (hb1 : 1 ≤ b)
    (hb : 1024 ≤ n / 1024 ^ (b - 1)) : 1024 ^ b ≤ n := by
  have h := (Nat.le_div_iff_mul_le (by positivity)).mp hb
  calc 1024 ^ b = 1024 ^ (b - 1 + 1) := by congr 1; omega
    _ = 1024 ^ (b - 1) * 1024 := pow_succ 1024 (b - 1)
    _ ≤ n := by
        rw [mul_comm] at h
        simpa [mul_comm] using h

theorem lt_pow_of_div_lt (n a : Nat) (ha : n / 1024 ^ a < 1024) :
    n < 1024 ^ (a + 1) := by
  have h := (Nat.div_lt_iff_lt_mul (by positivity)).mp ha
  calc n < 1024 * 1024 ^ a := h
    _ = 1024 ^ (a + 1) := by rw [pow_succ, mul_comm]

theorem unit_index_le (n a b : Nat) (hb1 : 1 ≤ b)
    (ha : n / 1024 ^ a < 1024) (hb : 1024 ≤ n / 1024 ^ (b - 1)) : b ≤ a := by
  have h1 : 1024 ^ b ≤ n := pow_le_of_div_ge n b hb1 hb
  have h2 : n < 1024 ^ (a + 1) := lt_pow_of_div_lt n a ha
  have h3 : (1024 : Nat) ^ b < 1024 ^ (a + 1) := lt_of_le_of_lt h1 h2
  have h4 := (Nat.pow_lt_pow_iff_right (by norm_num : 1 < 1024)).mp h3
  omega

theorem unit_index_unique (n k1 k2 : Nat)
    (h1 : 1 ≤ k1) (h1a : 1024 ≤ n / 1024 ^ (k1 - 1)) (h1b : n / 1024 ^ k1 < 1024)
    (h2 : 1 ≤ k2) (h2a : 1024 ≤ n / 1024 ^ (k2 - 1)) (h2b : n / 1024 ^ k2 < 1024) :
    k1 = k2 :=
  le_antisymm (unit_index_le n k2 k1 h1 h2b h1a)
    (unit_index_le n k1 k2 h2 h1b h2a)

theorem repr_data_size_eq (n k : Nat) (hn : 1024 ≤ n) (hk : 1 ≤ k)
    (hlow : 1024 ≤ n / 1024 ^ (k - 1)) (hhigh : n / 1024 ^ k < 1024) :
    repr_data_size n = (magnitudeUnits.get? k).map
      (fun u => fmtFrac2 (n / 1024 ^ k) (n / 1024 ^ (k - 1) % 1024)
        ++ " " ++ u) := by
  obtain ⟨k2, hk1, heq, hlow2, hhigh2⟩ := sizeLoop_spec n hn 0
  have hkk : k2 = k := unit_index_unique n k2 k hk1 hlow2 hhigh2 hk hlow hhigh
  subst hkk
  rw [repr_data_size, if_neg (by omega), heq]
  simp only [Nat.zero_add]

/-- C3 (amended).  At precision 2 the formatter returns exactly the four
quoted strings; inputs under 1024 are rendered as the integer byte count
with unit `B`; inputs at or above 1024 **and below `1024^9`** are
divided down to the first unit index `k` (1..8) at which the remaining
value drops below 1024 and rendered with two decimal digits and that
unit; for inputs at or above `1024^9` the divide-down loop exhausts the
unit table and the formatter raises `IndexError` (modelled as `none`)
instead of rendering. -/
theorem c3_repr_data_size :
    repr_data_size 100 = some "100 B" ∧
    repr_data_size 100000 = some "97.66 KB" ∧
    repr_data_size 100000000 = some "95.37 MB" ∧
    repr_data_size 100000000000 = some "93.13 GB" ∧
    (∀ n : Nat, n < 1024 → repr_data_size n = some (toString n ++ " B")) ∧
    (∀ n : Nat, 1024 ≤ n → n < 1024 ^ 9 →
      ∃ k u, 1 ≤ k ∧ k ≤ 8 ∧
        1024 ≤ n / 1024 ^ (k - 1) ∧ n / 1024 ^ k < 1024 ∧
        magnitudeUnits.get? k = some u ∧
        repr_data_size n
          = some (fmtFrac2 (n / 1024 ^ k) (n / 1024 ^ (k - 1) % 1024)
              ++ " " ++ u)) ∧
    (∀ n : Nat, 1024 ^ 9 ≤ n → repr_data_size n = none) := by
  refine ⟨by decide, ?_, ?_, ?_, ?_, ?_, ?_⟩
  · rw [repr_data_size_eq 100000 1 (by norm_num) (by norm_num)
      (by decide) (by decide)]
    decide
  · rw [repr_data_size_eq 100000000 2 (by norm_num) (by norm_num)
      (by decide) (by decide)]
    decide
  · rw [repr_data_size_eq 100000000000 3 (by norm_num) (by norm_num)
      (by decide) (by decide)]
    decide
  · intro n hn
    rw [repr_data_size, if_pos hn]
  · intro n hn hlt
    obtain ⟨k, hk1, heq, hlow, hhigh⟩ := sizeLoop_spec n hn 0
    have hk8 : k ≤ 8 := by
      have h1 : 1024 ^ k ≤ n := pow_le_of_div_ge n k hk1 hlow
      have h3 : (1024 : Nat) ^ k < 1024 ^ 9 := lt_of_le_of_lt h1 hlt
      have h4 := (Nat.pow_lt_pow_iff_right (by norm_num : 1 < 1024)).mp h3
      omega
    obtain ⟨u, hu⟩ : ∃ u, magnitudeUnits.get? k = some u := by
      cases hcase : magnitudeUnits.get? k with
      | none =>
        rw [List.get?_eq_none] at hcase
        have hlen : magnitudeUnits.length = 9 := rfl
        omega
      | some u => exact ⟨u, rfl⟩
    refine ⟨k, u, hk1, hk8, hlow, hhigh, hu, ?_⟩
    rw [repr_data_size, if_neg (by omega), heq]
    simp only [Nat.zero_add]
    rw [hu, Option.map_some']
  · intro n hge
    have hn : 1024 ≤ n := le_trans (by norm_num) hge
    obtain ⟨k, hk1, heq, hlow, hhigh⟩ := sizeLoop_spec n hn 0
    have h9 : 9 ≤ k := by
      have h2 : n < 1024 ^ (k + 1) := lt_pow_of_div_lt n k hhigh
      have h3 : (1024 : Nat) ^ 9 < 1024 ^ (k + 1) := lt_of_le_of_lt hge h2
      have h4 := (Nat.pow_lt_pow_iff_right (by norm_num : 1 < 1024)).mp h3
      omega
    rw [repr_data_size, if_neg (by omega), heq]
    simp only [Nat.zero_add]
    have hnone : magnitudeUnits.get? k = none := by
      rw [List.get?_eq_none]
      show magnitudeUnits.length ≤ k
      have hlen : magnitudeUnits.length = 9 := rfl
      omega
    rw [hnone]
    rfl

/-- C3, witness: the general clause of the theorem instantiated at
5000 bytes. -/
theorem c3_repr_data_size_witness :
    ∃ k u, 1 ≤ k ∧ k ≤ 8 ∧
      1024 ≤ 5000 / 1024 ^ (k - 1) ∧ 5000 / 1024 ^ k < 1024 ∧
      magnitudeUnits.get? k = some u ∧
      repr_data_size 5000
        = some (fmtFrac2 (5000 / 1024 ^ k) (5000 / 1024 ^ (k - 1) % 1024)
            ++ " " ++ u) :=
  c3_repr_data_size.2.2.2.2.2.1 5000 (by norm_num) (by norm_num)

/-- C3, counterexample: `1024^9` is an input at or above 1024, but the
formatter does not render it with two decimals and a unit - the unit
lookup at index 9 fails (`IndexError`), so the claim's unqualified
"inputs at or above 1024 are divided down ... and rendered" is false. -/
theorem c3_counterexample :
    repr_data_size (1024 ^ 9) = none ∧ 1024 ≤ 1024 ^ 9 := by
  constructor
  · have hn : 1024 ≤ 1024 ^ 9 := by norm_num
    obtain ⟨k, hk1, heq, hlow, hhigh⟩ := sizeLoop_spec (1024 ^ 9) hn 0
    have hk9 : k = 9 := unit_index_unique (1024 ^ 9) k 9 hk1 hlow hhigh
      (by norm_num) (by decide) (by decide)
    subst hk9
    rw [repr_data_size, if_neg (by norm_num), heq]
    rfl
  · norm_num

theorem alookup_mem (k : LC) (fs : List (LC × WinFile)) (w : WinFile)
    (h : alookup k fs = some w) : (k, w) ∈ fs := by
  induction fs with
  | nil => cases h
  | cons kv rest ih =>
    obtain ⟨k2, v⟩ := kv
    rw [alookup] at h
    by_cases hk : k = k2
    · rw [if_pos hk] at h
      subst hk
      rw [Option.some_inj.mp h]
      exact List.mem_cons_self _ _
    · rw [if_neg hk] at h
      exact List.mem_cons_of_mem _ (ih h)

theorem alookup_append_left (k : LC) (fs gs : List (LC × WinFile)) (w : WinFile)
    (h : alookup k fs = some w) : alookup k (fs ++ gs) = some w := by
  induction fs with
  | nil => cases h
  | cons kv rest ih =>
    obtain ⟨k2, v⟩ := kv
    rw [alookup] at h
    rw [List.cons_append, alookup]
    by_cases hk : k = k2
    · rw [if_pos hk] at h ⊢
      exact h
    · rw [if_neg hk] at h ⊢
      exact ih h

theorem alookup_setdefault_of_some (fs : List (LC × WinFile)) (p k : LC)
    (v w : WinFile) (h : alookup p fs = some w) :
    alookup p (setdefault fs k v) = some w := by
  rw [setdefault]
  cases alookup k fs with
  | some u => exact h
  | none => exact alookup_append_left p fs [(k, v)] w h

theorem nodup_setdefault (fs : List (LC × WinFile)) (k : LC) (w : WinFile)
    (h : (pathsOf fs).Nodup) : (pathsOf (setdefault fs k w)).Nodup := by
  rw [setdefault]
  cases hl : alookup k fs with
  | some u => exact h
  | none =>
    rw [pathsOf_append]
    have hk : k ∉ pathsOf fs := (alookup_eq_none_iff k fs).mp hl
    rw [List.nodup_append]
    refine ⟨h, List.nodup_singleton k, ?_⟩
    intro a ha hb
    rw [pathsOf_cons, pathsOf_nil] at hb
    rw [List.mem_singleton] at hb
    subst hb
    exact hk ha

theorem mem_pathsOf_addAll (ws : List WinFile) (fs : List (LC × WinFile))
    (p : LC) :
    p ∈ pathsOf (addAll fs ws)
      ↔ p ∈ pathsOf fs ∨ p ∈ ws.map WinFile.abspath := by
  induction ws generalizing fs with
  | nil =>
    rw [addAll, List.foldl_nil, List.map_nil]
    simp
  | cons w ws ih =>
    rw [addAll, List.foldl_cons]
    have : (ws.foldl (fun acc v => setdefault acc v.abspath v)
        (setdefault fs w.abspath w)) = addAll (setdefault fs w.abspath w) ws := rfl
    rw [this, ih, mem_pathsOf_setdefault, List.map_cons, List.mem_cons]
    tauto

theorem nodup_addAll (ws : List WinFile) (fs : List (LC × WinFile))
    (h : (pathsOf fs).Nodup) : (pathsOf (addAll fs ws)).Nodup := by
  induction ws generalizing fs with
  | nil => exact h
  | cons w ws ih =>
    rw [addAll, List.foldl_cons]
    exact ih (setdefault fs w.abspath w) (nodup_setdefault fs w.abspath w h)

theorem alookup_addAll_of_some (ws : List WinFile) (fs : List (LC × WinFile))
    (p : LC) (w : WinFile) (h : alookup p fs = some w) :
    alookup p (addAll fs ws) = some w := by
  induction ws generalizing fs with
  | nil => exact h
  | cons v ws ih =>
    rw [addAll, List.foldl_cons]
    exact ih (setdefault fs v.abspath v)
      (alookup_setdefault_of_some fs p v.abspath v w h)

theorem iterfiles_none (B : FC) (h : B.order = none) :
    iterfiles B = B.files.map Prod.snd := by
  rw [iterfiles, h]

theorem iterfiles_some (B : FC) (ord : List LC) (h : B.order = some ord) :
    iterfiles B = iterfilesOrd B.files ord := by
  rw [iterfiles, h]

theorem iterpaths_none (B : FC) (h : B.order = none) :
    iterpaths B = pathsOf B.files := by
  rw [iterpaths, h]

theorem iterpaths_some (B : FC) (ord : List LC) (h : B.order = some ord) :
    iterpaths B = ord := by
  rw [iterpaths, h]

theorem iterfilesOrd_mem_values (fs : List (LC × WinFile)) (ord : List LC)
    (w : WinFile) (h : w ∈ iterfilesOrd fs ord) : ∃ k, (k, w) ∈ fs := by
  induction ord with
  | nil => cases h
  | cons q qs ih =>
    rw [iterfilesOrd] at h
    cases hl : alookup q fs with
    | some v =>
      rw [hl] at h
      rcases List.mem_cons.mp h with h1 | h2
      · subst h1
        exact ⟨q, alookup_mem q fs w hl⟩
      · exact ih h2
    | none =>
      rw [hl] at h
      obtain ⟨⟨k, v⟩, hmem, hv⟩ := List.mem_map.mp h
      have hv2 : v = w := hv
      exact ⟨k, hv2 ▸ hmem⟩

theorem iterfiles_mem_values (B : FC) (w : WinFile) (h : w ∈ iterfiles B) :
    ∃ k, (k, w) ∈ B.files := by
  cases ho : B.order with
  | some ord =>
    rw [iterfiles_some B ord ho] at h
    exact iterfilesOrd_mem_values B.files ord w h
  | none =>
    rw [iterfiles_none B ho] at h
    obtain ⟨⟨k, v⟩, hmem, hv⟩ := List.mem_map.mp h
    have hv2 : v = w := hv
    exact ⟨k, hv2 ▸ hmem⟩

theorem iterfiles_abspath_subset (B : FC) (hB : wfFC B) (w : WinFile)
    (h : w ∈ iterfiles B) : w.abspath ∈ pathsOf B.files := by
  obtain ⟨k, hk⟩ := iterfiles_mem_values B w h
  have : w.abspath = k := hB.2 (k, w) hk
  rw [this]
  exact List.mem_map.mpr ⟨(k, w), hk, rfl⟩

theorem keys_subset_iterfiles (B : FC) (hB : wfFC B) (hOrd : orderExact B)
    (p : LC) (hp : p ∈ pathsOf B.files) :
    p ∈ (iterfiles B).map WinFile.abspath := by
  cases ho : B.order with
  | none =>
    rw [iterfiles_none B ho]
    obtain ⟨⟨k, v⟩, hmem, hk⟩ := List.mem_map.mp hp
    refine List.mem_map.mpr ⟨v, List.mem_map.mpr ⟨(k, v), hmem, rfl⟩, ?_⟩
    rw [hB.2 (k, v) hmem]
    exact hk
  | some ord =>
    rw [iterfiles_some B ord ho]
    have hcov : ∀ q ∈ ord, (alookup q B.files).isSome := by
      intro q hq
      have hqmem : q ∈ pathsOf B.files := (hOrd ord ho q).mp hq
      cases hl : alookup q B.files with
      | some v => rfl
      | none => exact absurd hqmem ((alookup_eq_none_iff q B.files).mp hl)
    rw [iterfilesOrd_all_present B.files ord hcov]
    have hpord : p ∈ ord := (hOrd ord ho p).mpr hp
    obtain ⟨v, hv⟩ := Option.isSome_iff_exists.mp (hcov p hpord)
    refine List.mem_map.mpr ⟨v, List.mem_filterMap.mpr ⟨p, hpord, hv⟩, ?_⟩
    exact hB.2 (p, v) (alookup_mem p B.files v hv)

theorem mem_iterpaths_iff (B : FC) (hOrd : orderExact B) (p : LC) :
    p ∈ iterpaths B ↔ p ∈ pathsOf B.files := by
  cases ho : B.order with
  | none => rw [iterpaths_none B ho]
  | some ord =>
    rw [iterpaths_some B ord ho]
    exact hOrd ord ho p

theorem pathsOf_ddel (k : LC) (fs r : List (LC × WinFile))
    (h : ddel k fs = some r) : pathsOf r = (pathsOf fs).erase k := by
  induction fs generalizing r with
  | nil => cases h
  | cons kv rest ih =>
    obtain ⟨k2, w⟩ := kv
    rw [ddel] at h
    by_cases hk : k = k2
    · rw [if_pos hk] at h
      subst hk
      rw [← Option.some_inj.mp h, pathsOf_cons, List.erase_cons_head]
    · rw [if_neg hk] at h
      cases hd : ddel k rest with
      | none =>
        rw [hd] at h
        cases h
      | some r2 =>
        rw [hd] at h
        simp only [Option.map_some'] at h
        rw [← Option.some_inj.mp h, pathsOf_cons, pathsOf_cons]
        rw [List.erase_cons_tail]
        · rw [ih r2 hd]
        · simp
          intro hc
          exact hk hc.symm

theorem pathsOf_delIfPresent (fs : List (LC × WinFile)) (k : LC) :
    pathsOf (delIfPresent fs k) = (pathsOf fs).erase k := by
  rw [delIfPresent]
  cases hd : ddel k fs with
  | some r => exact pathsOf_ddel k fs r hd
  | none =>
    rw [List.erase_of_not_mem ((ddel_eq_none_iff k fs).mp hd)]

theorem delAll_spec (l : List LC) (fs : List (LC × WinFile))
    (h : (pathsOf fs).Nodup) :
    (pathsOf (l.foldl delIfPresent fs)).Nodup ∧
      ∀ p, p ∈ pathsOf (l.foldl delIfPresent fs)
        ↔ p ∈ pathsOf fs ∧ p ∉ l := by
  induction l generalizing fs with
  | nil =>
    rw [List.foldl_nil]
    refine ⟨h, ?_⟩
    intro p
    simp
  | cons q qs ih =>
    rw [List.foldl_cons]
    have hnd : (pathsOf (delIfPresent fs q)).Nodup := by
      rw [pathsOf_delIfPresent]
      exact List.Nodup.erase q h
    obtain ⟨ih1, ih2⟩ := ih (delIfPresent fs q) hnd
    refine ⟨ih1, ?_⟩
    intro p
    rw [ih2 p, pathsOf_delIfPresent, List.Nodup.mem_erase_iff h,
      List.mem_cons]
    tauto

theorem map_abspath_subset_keys (B : FC) (hB : wfFC B) (p : LC)
    (h : p ∈ (iterfiles B).map WinFile.abspath) : p ∈ pathsOf B.files := by
  obtain ⟨w, hw, habs⟩ := List.mem_map.mp h
  rw [← habs]
  exact iterfiles_abspath_subset B hB w hw

/-- C2 (amended).  For well-formed collections `A`, `B`:
`len(A + B) ≤ len(A) + len(B)` always holds.  Provided the right
collection's explicit order, when set, enumerates exactly its paths
(true when no sort happened, or right after a successful sort; an `add`
or `remove` after a sort can break it): every path of `B` is in
`A + B`, the left collection's entry wins on a path collision, and
`(A + B) - B` holds exactly the paths of `A` not in `B`, each exactly
once.  Without that proviso union can drop paths of `B` whose entries a
stale order hides (see the counterexample). -/
theorem c2_collection_algebra (A B : FC) (hA : wfFC A) (hB : wfFC B) :
    (fcAdd A B).files.length ≤ A.files.length + B.files.length ∧
    (orderExact B →
      (∀ p, p ∈ pathsOf B.files → p ∈ pathsOf (fcAdd A B).files) ∧
      (∀ p w, alookup p A.files = some w →
        alookup p (fcAdd A B).files = some w) ∧
      (∀ p, p ∈ pathsOf (fcSub (fcAdd A B) B).files ↔
        p ∈ pathsOf A.files ∧ p ∉ pathsOf B.files) ∧
      (pathsOf (fcSub (fcAdd A B) B).files).Nodup) := by
  have hNodupAdd : (pathsOf (fcAdd A B).files).Nodup :=
    nodup_addAll (iterfiles B) A.files hA.1
  have hmemAdd : ∀ p, p ∈ pathsOf (fcAdd A B).files
      ↔ p ∈ pathsOf A.files ∨ p ∈ (iterfiles B).map WinFile.abspath :=
    fun p => mem_pathsOf_addAll (iterfiles B) A.files p
  constructor
  · have hsubset : pathsOf (fcAdd A B).files
        ⊆ pathsOf A.files ++ pathsOf B.files := by
      intro p hp
      rcases (hmemAdd p).mp hp with hl | hr
      · exact List.mem_append_left _ hl
      · exact List.mem_append_right _ (map_abspath_subset_keys B hB p hr)
    have hlen := (List.subperm_of_subset hNodupAdd hsubset).length_le
    rw [List.length_append] at hlen
    have e1 : (pathsOf (fcAdd A B).files).length = (fcAdd A B).files.length :=
      List.length_map _ _
    have e2 : (pathsOf A.files).length = A.files.length := List.length_map _ _
    have e3 : (pathsOf B.files).length = B.files.length := List.length_map _ _
    omega
  · intro hOrd
    obtain ⟨hndDel, hiffDel⟩ :=
      delAll_spec (iterpaths B) (fcAdd A B).files hNodupAdd
    refine ⟨?_, ?_, ?_, hndDel⟩
    · intro p hp
      exact (hmemAdd p).mpr (Or.inr (keys_subset_iterfiles B hB hOrd p hp))
    · intro p w hw
      exact alookup_addAll_of_some (iterfiles B) A.files p w hw
    · intro p
      have hsub : (fcSub (fcAdd A B) B).files
          = (iterpaths B).foldl delIfPresent (fcAdd A B).files := rfl
      rw [hsub, hiffDel p, hmemAdd p, mem_iterpaths_iff B hOrd p]
      constructor
      · rintro ⟨hl | hr, hnotB⟩
        · exact ⟨hl, hnotB⟩
        · exact absurd (map_abspath_subset_keys B hB p hr) hnotB
      · rintro ⟨hinA, hnotB⟩
        exact ⟨Or.inl hinA, hnotB⟩

/-- C2, witness: the theorem applied to the two concrete one-file
collections. -/
theorem c2_collection_algebra_witness :
    (fcAdd c2A c2B).files.length ≤ c2A.files.length + c2B.files.length ∧
    (orderExact c2B →
      (∀ p, p ∈ pathsOf c2B.files → p ∈ pathsOf (fcAdd c2A c2B).files) ∧
      (∀ p w, alookup p c2A.files = some w →
        alookup p (fcAdd c2A c2B).files = some w) ∧
      (∀ p, p ∈ pathsOf (fcSub (fcAdd c2A c2B) c2B).files ↔
        p ∈ pathsOf c2A.files ∧ p ∉ pathsOf c2B.files) ∧
      (pathsOf (fcSub (fcAdd c2A c2B) c2B).files).Nodup) :=
  c2_collection_algebra c2A c2B ⟨by decide, by decide⟩ ⟨by decide, by decide⟩

/-- C2, counterexample: let `B` hold `/t/a` and `/t/b` with the stale
explicit order `[/t/a]` (a sort followed by an `add`), and let `A` be
empty.  Then `/t/b` is a path of `B` but is not present in `A + B`:
union drops it because `iterfiles` honors the incomplete order. -/
theorem c2_counterexample :
    "/t/b".toList ∈ pathsOf
      ({ files := [("/t/a".toList, stubFile ("/t/a".toList)),
                   ("/t/b".toList, stubFile ("/t/b".toList))],
         order := some ["/t/a".toList] } : FC).files ∧
    "/t/b".toList ∉ pathsOf
      (fcAdd { files := [], order := none }
        { files := [("/t/a".toList, stubFile ("/t/a".toList)),
                    ("/t/b".toList, stubFile ("/t/b".toList))],
          order := some ["/t/a".toList] }).files := by
  constructor
  · decide
  · decide
